import Mathlib

/-!
Verification development for the ResearchFlow retrieval engine.

Shallow embedding of the core pipeline:
* `src/core/chunker.py` (`Chunker.split`, including the
  `RecursiveCharacterTextSplitter` it delegates to, embedded from that
  library's `_split_text` / `_split_text_with_regex` / `_merge_splits`
  with the configuration the repository uses:
  `separators=["\n\n", "\n", ".", "!", "?", " "]`, `keep_separator=True`,
  `strip_whitespace=True`, `length_function=len`),
* `src/core/vector_store.py` (`VectorStore` over a ChromaDB persistent
  client; the client itself is embedded from ChromaDB's documented API:
  `get_or_create_collection`, `get_collection` failing on a missing name,
  `query` returning the `n_results` nearest entries in ascending distance
  under the collection's configured cosine metric),
* `src/core/retriever.py` (`Retriever`),
* `src/core/translator.py` (`Translator` orchestrator).

Python strings are embedded as `List Char`, Python floats as `ℚ`
(the float values that matter to the claims are small dyadic rationals,
on which Python's arithmetic and `round` are exact / correctly rounded).
Calls into external ports (embedding model, Ollama generation) are
environment functions; the orchestrator's interactions with them are
returned as explicit logs so that theorems can speak about which calls
were dispatched and with which payloads.
-/

/-- Python strings, embedded as lists of characters. -/
abbrev Str := List Char

/-- Convert a Lean string literal to the `Str` embedding. -/
def strOf (s : String) : Str := s.toList

/-- The whitespace characters stripped by Python's `str.strip()`
(ASCII part; the texts the claims exercise are ASCII). -/
def pyIsSpace (c : Char) : Bool :=
  c = ' ' || c = '\t' || c = '\n' || c = '\r' || c = '\x0b' || c = '\x0c'

/-- Remove leading Python whitespace. -/
def pyStripLeft : Str → Str
  | [] => []
  | c :: cs => if pyIsSpace c then pyStripLeft cs else c :: cs

/-- Python's `str.strip()`: remove leading and trailing whitespace. -/
def pyStrip (s : Str) : Str :=
  (pyStripLeft (pyStripLeft s).reverse).reverse

/-- Python truthiness of a string combined with `.strip()`:
`not s or not s.strip()` holds exactly when every character is whitespace. -/
def pyBlank (s : Str) : Bool := s.all pyIsSpace

/-- Decimal rendering of a natural number (Python's `str(n)` / f-string). -/
def natToStr (n : Nat) : Str := (Nat.repr n).toList

/-- `containsSub q t` holds when `q` occurs as a contiguous substring of `t`
(Python's `q in t` / `re.search(re.escape(q), t)` for the literal
separators used by the chunker). -/
def containsSub (q : Str) : Str → Bool
  | [] => q.isEmpty
  | t@(_ :: rest) => q.isPrefixOf t || containsSub q rest

/-- Join a list of strings with a separator between consecutive elements
(`sep.join(parts)` in Python). -/
def joinSep (sep : Str) : List Str → Str
  | [] => []
  | [p] => p
  | p :: q :: ps => p ++ sep ++ joinSep sep (q :: ps)

section Round

/-- Round a rational to the nearest integer, ties to even
(the rounding mode of Python's builtin `round`). -/
def roundHalfEven (q : ℚ) : ℤ :=
  let f : ℤ := ⌊q⌋
  let frac : ℚ := q - (f : ℚ)
  if frac < 1/2 then f
  else if 1/2 < frac then f + 1
  else if f % 2 = 0 then f else f + 1

/-- Python's `round(x, 4)`: round to four decimal places, ties to even. -/
def round4 (q : ℚ) : ℚ := (roundHalfEven (q * 10000) : ℚ) / 10000

end Round

/-! ## Chunker (`src/core/chunker.py` and the recursive splitter it uses)

The `Chunker` constructs a `RecursiveCharacterTextSplitter` with
`separators=["\n\n", "\n", ".", "!", "?", " "]`, `keep_separator=True`
(the library default), `chunk_size` and `chunk_overlap`, and
`length_function=len`. -/

/-- The separator priority list `Chunker.__init__` passes to the splitter. -/
def SEPARATORS : List Str :=
  [strOf "\n\n", strOf "\n", strOf ".", strOf "!", strOf "?", strOf " "]

/-- Chunker configuration: `chunk_size` and `chunk_overlap`. -/
structure ChunkCfg where
  chunkSize : Nat
  chunkOverlap : Nat

/-- `re.split(pattern, text)` for a literal pattern: the parts of `text`
between leftmost non-overlapping occurrences of `sep`.  `acc` is the
reversed portion of the current part scanned so far.  The `fuel`
parameter makes the recursion structural (each step consumes at least one
character, so `fuel = text.length` never runs out); all reasoning is done
under that adequate-fuel hypothesis. -/
def splitPartsFuel (sep : Str) : Nat → Str → Str → List Str
  | 0, acc, t => [acc.reverse ++ t]
  | _ + 1, acc, [] => [acc.reverse]
  | fuel + 1, acc, c :: rest =>
    if sep ≠ [] ∧ sep.isPrefixOf (c :: rest) then
      acc.reverse :: splitPartsFuel sep fuel [] ((c :: rest).drop sep.length)
    else
      splitPartsFuel sep fuel (c :: acc) rest

/-- The parts of `text` between occurrences of `sep`. -/
def splitParts (sep : Str) (text : Str) : List Str :=
  splitPartsFuel sep text.length [] text

/-- `_split_text_with_regex(text, sep, keep_separator=True)`:
split into parts, reattach each separator occurrence to the front of the
following part, and drop empty pieces. -/
def splitKeepSep (sep : Str) (text : Str) : List Str :=
  match splitParts sep text with
  | [] => []
  | p :: ps => (p :: ps.map (fun q => sep ++ q)).filter (fun s => s ≠ [])

/-- The separator-selection loop at the top of `_split_text`: take the
first separator of `seps` occurring in `text` together with the remaining
separators; default to the last separator (with no remaining ones) when
none occurs. -/
def chooseSep : List Str → Str → Str × List Str
  | [], _ => ([], [])
  | [s], _ => (s, [])
  | s :: s2 :: rest, t =>
    if containsSub s t then (s, s2 :: rest) else chooseSep (s2 :: rest) t

/-- `_join_docs(docs, separator="")` with `strip_whitespace=True`:
concatenate, strip, and drop the result when it is empty. -/
def joinDocs (docs : List Str) : Option Str :=
  let t := pyStrip docs.flatten
  if t = [] then none else some t

/-- Append `joinDocs cur` to `docs` when it produced a document. -/
def flushDocs (docs : List Str) (cur : List Str) : List Str :=
  match joinDocs cur with
  | none => docs
  | some d => docs ++ [d]

/-- The overlap-trimming `while` loop inside `_merge_splits`: pop leading
splits while the running total exceeds `chunk_overlap`, or while adding the
next split (of length `dlen`) would still overflow `chunk_size`.
(The loop can only run with a non-empty `current_doc`: an empty one has
`total = 0`, which falsifies the loop condition.) -/
def popWhile (cfg : ChunkCfg) (dlen : Nat) : List Str → Nat → List Str × Nat
  | [], total => ([], total)
  | c :: cs, total =>
    if cfg.chunkOverlap < total ∨ (cfg.chunkSize < total + dlen ∧ 0 < total) then
      popWhile cfg dlen cs (total - c.length)
    else (c :: cs, total)

/-- The main loop of `_merge_splits` (with `separator=""` since
`keep_separator=True`): accumulate splits into `cur` (running length
`total`), emitting a joined document and trimming to the overlap whenever
the next split would overflow `chunk_size`. -/
def mergeLoop (cfg : ChunkCfg) : List Str → List Str → Nat → List Str → List Str
  | docs, cur, _, [] => flushDocs docs cur
  | docs, cur, total, d :: rest =>
    if cfg.chunkSize < total + d.length then
      match cur with
      | [] => mergeLoop cfg docs [d] d.length rest
      | _ :: _ =>
        let docs' := flushDocs docs cur
        let pt := popWhile cfg d.length cur total
        mergeLoop cfg docs' (pt.1 ++ [d]) (pt.2 + d.length) rest
    else
      mergeLoop cfg docs (cur ++ [d]) (total + d.length) rest

/-- `_merge_splits(splits, "")`. -/
def mergeSplits (cfg : ChunkCfg) (splits : List Str) : List Str :=
  mergeLoop cfg [] [] 0 splits

/-- Total length of a list of strings (the splitter's running `total`,
since the merge separator is empty under `keep_separator=True`). -/
def sumLen (l : List Str) : Nat := (l.map List.length).sum

/-- `q` occurs in `t` at most as a leading occurrence (never at an index
past the first character). -/
def leadOnly (q t : Str) : Prop := containsSub q (t.drop 1) = false

/-- Invariant carried by `_split_text`'s recursion: every single-character
separator already consumed at an outer level occurs in the current text
at most as its leading character.  (`"\n\n"` needs no own clause: its
occurrences are governed by those of `"\n"`.) -/
def SplitInv (seps : List Str) (t : Str) : Prop :=
  ∀ q ∈ SEPARATORS, q ∉ seps → q ≠ strOf "\n\n" → leadOnly q t

/-- A chunk that admits no further boundary split: no separator occurs in
it beyond its first character, i.e. it is a single atomic token possibly
preceded by one attached boundary character. -/
def atomicChunk (c : Str) : Prop :=
  ∀ q ∈ SEPARATORS, containsSub q (c.drop 1) = false

/-- A character on which the splitter can break (every separator of the
priority list is a run of these). -/
def isBoundaryChar (c : Char) : Bool :=
  c = '\n' || c = '.' || c = '!' || c = '?' || c = ' '

/-- Helper for `atomTokens`: accumulate the current token (reversed). -/
def atomTokensAux : Str → Str → List Str
  | cur, [] => [cur.reverse]
  | cur, c :: rest =>
    if isBoundaryChar c then cur.reverse :: atomTokensAux [] rest
    else atomTokensAux (c :: cur) rest

/-- The atomic tokens of a string: its maximal boundary-free runs
(the pieces between boundary characters). -/
def atomTokens (s : Str) : List Str := atomTokensAux [] s

/-- The loop over `splits` inside `_split_text`: pieces shorter than
`chunk_size` are buffered in `good` and merged; an oversized piece first
flushes the buffer, then is handled by `handleBad` — which, at the call
site in `splitTextFuel`, either appends the piece verbatim (no separators
left) or splits it recursively with the remaining separators. -/
def processSplits (cfg : ChunkCfg) (handleBad : Str → List Str) :
    List Str → List Str → List Str
  | [], good => if good ≠ [] then mergeSplits cfg good else []
  | s :: rest, good =>
    if s.length < cfg.chunkSize then
      processSplits cfg handleBad rest (good ++ [s])
    else
      (if good ≠ [] then mergeSplits cfg good else []) ++
        handleBad s ++ processSplits cfg handleBad rest []

/-- `_split_text(text, separators)`: choose the first applicable separator,
split keeping separators, then process the pieces.  The recursion descends
to the separators remaining after the chosen one, a strict suffix, so
`fuel = separators.length` (supplied by `splitText`) never runs out. -/
def splitTextFuel (cfg : ChunkCfg) : Nat → List Str → Str → List Str
  | 0, _, text => [text]
  | _ + 1, [], text => [text]
  | fuel + 1, s :: rest, text =>
    let sc := chooseSep (s :: rest) text
    processSplits cfg
      (fun b => if sc.2 = [] then [b] else splitTextFuel cfg fuel sc.2 b)
      (splitKeepSep sc.1 text) []

/-- `RecursiveCharacterTextSplitter.split_text(text)` with the
repository's configuration. -/
def splitText (cfg : ChunkCfg) (text : Str) : List Str :=
  splitTextFuel cfg SEPARATORS.length SEPARATORS text

/-- Metadata recorded on each chunk by `Chunker.split`. -/
structure ChunkMeta where
  source : Str
  chunk_index : Nat
  total_chunks : Nat
  char_count : Nat
deriving DecidableEq, Repr

/-- One chunk dictionary produced by `Chunker.split`. -/
structure ChunkRec where
  id : Str
  text : Str
  metadata : ChunkMeta
deriving DecidableEq, Repr

/-- Errors raised by the core (`ValueError`s in the source, named after
the spec's error taxonomy). -/
inductive CoreErr where
  | invalidInput
  | unsupportedLanguage
deriving DecidableEq, Repr

/-- `Chunker.split(text, source_name)`: raise on blank text, split via the
recursive splitter, then wrap each raw chunk with its metadata. -/
def chunkerSplit (cfg : ChunkCfg) (text : Str) (sourceName : Str) :
    Except CoreErr (List ChunkRec) :=
  if text = [] ∨ pyStrip text = [] then .error .invalidInput
  else
    let raw := splitText cfg text
    .ok (raw.enum.map fun p =>
      { id := sourceName ++ strOf "_chunk_" ++ natToStr p.1
        text := p.2
        metadata :=
          { source := sourceName
            chunk_index := p.1
            total_chunks := raw.length
            char_count := p.2.length } })

/-! ## Vector store (`src/core/vector_store.py` over a ChromaDB client)

The ChromaDB persistent client is embedded from its documented API:
collections are an association list from names to entry lists;
`get_or_create_collection` returns the existing collection or appends a
fresh empty one; `get_collection` fails on a missing name; `query`
returns the `n_results` entries nearest to the query embedding in
ascending distance under the collection's configured metric
(`create_collection` configures `{"hnsw:space": "cosine"}`, so the
distance function — kept as an explicit parameter `dist` since cosine
distance is irrational-valued in general — models cosine distance). -/

/-- One stored record: id, embedding, document text and metadata (the
metadata dictionary is opaque to every operation modeled here). -/
structure VSEntry where
  eid : Str
  emb : List ℚ
  text : Str
  meta : Str
deriving DecidableEq, Repr

/-- The ChromaDB client state: named collections in creation order. -/
structure VSState where
  collections : List (Str × List VSEntry)
deriving DecidableEq, Repr

/-- `client.get_collection(name)`, as a lookup that can miss. -/
def lookupCollection (st : VSState) (name : Str) : Option (List VSEntry) :=
  st.collections.lookup name

/-- `VectorStore.create_collection` /
`client.get_or_create_collection(name, metadata={"hnsw:space": "cosine"})`:
return the existing collection, or create an empty one.  Never fails. -/
def getOrCreateCollection (st : VSState) (name : Str) :
    VSState × List VSEntry :=
  match lookupCollection st name with
  | some es => (st, es)
  | none => (⟨st.collections ++ [(name, [])]⟩, [])

/-- `collection.query(...)`: all entries scored by distance to the query
embedding, sorted ascending (stably), truncated to `n_results`. -/
def queryCollection (dist : List ℚ → List ℚ → ℚ) (es : List VSEntry)
    (qemb : List ℚ) (k : Nat) : List (VSEntry × ℚ) :=
  (List.insertionSort (fun a b => a.2 ≤ b.2)
    (es.map (fun e => (e, dist e.emb qemb)))).take k

/-- One reformatted search result of `VectorStore.search`. -/
structure SearchHit where
  text : Str
  metadata : Str
  distance : ℚ
  similarity : ℚ
deriving DecidableEq, Repr

/-- `VectorStore.search(collection_name, query_embedding, n_results)`:
obtains the collection via `create_collection` (get-or-create, so a
missing collection is silently created empty and the call cannot fail),
queries it, and reformats each hit with `similarity = round(1 - distance, 4)`. -/
def vsSearch (dist : List ℚ → List ℚ → ℚ) (st : VSState) (name : Str)
    (qemb : List ℚ) (k : Nat) : VSState × List SearchHit :=
  let sc := getOrCreateCollection st name
  (sc.1, (queryCollection dist sc.2 qemb k).map fun p =>
    { text := p.1.text
      metadata := p.1.meta
      distance := p.2
      similarity := round4 (1 - p.2) })

/-- `VectorStore.collection_exists`: `get_collection` then `count() > 0`,
with the bare `except:` returning `False` on a missing collection. -/
def collectionExists (st : VSState) (name : Str) : Bool :=
  match lookupCollection st name with
  | some es => decide (0 < es.length)
  | none => false

/-- `VectorStore.get_collection_count`: `count()`, with the bare
`except:` returning `0` on a missing collection. -/
def getCollectionCount (st : VSState) (name : Str) : Nat :=
  match lookupCollection st name with
  | some es => es.length
  | none => 0

/-! ## Retriever (`src/core/retriever.py`) -/

/-- The retriever's collaborators: the embedding port (`Embedder`,
external model) and the vector index's distance function. -/
structure RetrEnv where
  embedSingle : Str → List ℚ
  dist : List ℚ → List ℚ → ℚ

/-- Retriever configuration: collection name and `n_results`
(source defaults: `"research_papers"` and `5`). -/
structure RetrCfg where
  collectionName : Str
  nResults : Nat

/-- `Retriever.retrieve(query)`: reject blank queries, embed the query,
search the vector store.  (The silent creation of a missing collection
mutates only the client; the returned hits are what callers consume.) -/
def retrieve (env : RetrEnv) (cfg : RetrCfg) (st : VSState) (query : Str) :
    Except CoreErr (List SearchHit) :=
  if query = [] ∨ pyStrip query = [] then .error .invalidInput
  else
    .ok (vsSearch env.dist st cfg.collectionName
      (env.embedSingle query) cfg.nResults).2

/-- `Retriever.retrieve_with_scores(query)`: the chunks plus
`round(mean similarity, 4)`, or `([], 0.0)` on an empty result. -/
def retrieveWithScores (env : RetrEnv) (cfg : RetrCfg) (st : VSState)
    (query : Str) : Except CoreErr (List SearchHit × ℚ) :=
  (retrieve env cfg st query).map fun chunks =>
    if chunks = [] then ([], 0)
    else (chunks, round4 ((chunks.map (fun c => c.similarity)).sum / chunks.length))

/-- `Retriever.is_relevant(query, threshold)`:
`average similarity >= threshold`. -/
def isRelevant (env : RetrEnv) (cfg : RetrCfg) (st : VSState)
    (query : Str) (threshold : ℚ) : Except CoreErr Bool :=
  (retrieveWithScores env cfg st query).map fun p => decide (threshold ≤ p.2)

/-! ## Orchestrator (`src/core/translator.py`)

`Translator` talks to the `Retriever` and the Ollama generation port.
Both are environment functions here; the orchestrator's outputs carry
explicit logs of the retrieval queries it issued and the message lists it
dispatched to generation, so theorems can state which calls were made. -/

/-- A chunk dictionary as seen by the orchestrator (it reads only the
`text` field; `similarity` is carried along as returned by retrieval). -/
structure RetChunk where
  text : Str
  similarity : ℚ
deriving DecidableEq, Repr

/-- Message roles of the LangChain chat API
(`SystemMessage` / `HumanMessage`). -/
inductive Role where
  | system
  | human
deriving DecidableEq, Repr

/-- One role-tagged message sent to the generation port. -/
structure Msg where
  role : Role
  content : Str
deriving DecidableEq, Repr

/-- The orchestrator's collaborators. -/
structure RagEnv where
  retrieveWithScores : Str → List RetChunk × ℚ
  retrieveAsContext : Str → Str
  generate : List Msg → Str

/-- The fixed answer returned when retrieval relevance is below the gate. -/
def NO_RELEVANT_ANSWER : Str :=
  strOf "I couldn't find relevant information in the paper to answer this question."

/-- The QA system prompt of `Translator.answer_question`. -/
def qaSystemMsg : Msg :=
  ⟨.system, strOf "You are an expert research paper assistant.\nYour job is to answer questions about research papers clearly and accurately.\n\nRules:\n- Only use the provided context to answer\n- If the context doesn't contain the answer, say so honestly\n- Use simple language to explain complex concepts\n- Be concise but complete\n- Always cite which context section your answer comes from"⟩

/-- The QA human message: context plus question. -/
def qaHumanMsg (context question : Str) : Msg :=
  ⟨.human, strOf "Here is the relevant context from the research paper:\n\n"
    ++ context
    ++ strOf "\n\nBased on the context above, please answer this question:\n"
    ++ question⟩

/-- Result dictionary of `Translator.answer_question`. -/
structure QAResult where
  answer : Str
  context_used : List RetChunk
  avg_relevance : ℚ
deriving DecidableEq, Repr

/-- `Translator.answer_question(question)`.  Second component: the
message lists dispatched to the generation port (empty when the
relevance gate short-circuits). -/
def answerQuestion (env : RagEnv) (question : Str) :
    Except CoreErr QAResult × List (List Msg) :=
  if pyBlank question then (.error .invalidInput, [])
  else
    let cs := env.retrieveWithScores question
    if cs.2 < 1/4 then
      (.ok ⟨NO_RELEVANT_ANSWER, [], cs.2⟩, [])
    else
      let context := env.retrieveAsContext question
      let msgs := [qaSystemMsg, qaHumanMsg context question]
      (.ok ⟨env.generate msgs, cs.1, cs.2⟩, [msgs])

/-- `Translator.SUPPORTED_LANGUAGES`: the fixed configuration-time list. -/
def SUPPORTED_LANGUAGES : List Str :=
  [strOf "Hindi", strOf "Gujarati", strOf "Spanish", strOf "French",
   strOf "German", strOf "Chinese", strOf "Japanese", strOf "Arabic",
   strOf "Portuguese", strOf "Italian", strOf "Korean", strOf "Russian",
   strOf "Dutch", strOf "Turkish", strOf "Bengali"]

/-- One terminology reference line `[Reference i+1]: text`. -/
def refLine (p : Nat × RetChunk) : Str :=
  strOf "[Reference " ++ natToStr (p.1 + 1) ++ strOf "]: " ++ p.2.text

/-- The translation system prompt. -/
def transSystemMsg (lang : Str) : Msg :=
  ⟨.system, strOf "You are an expert scientific translator \nspecializing in translating research papers into "
    ++ lang
    ++ strOf ".\n\nRules:\n- Translate accurately and naturally into "
    ++ lang
    ++ strOf "\n- Preserve all technical terms correctly\n- Keep the academic tone of the original\n- Do not add explanations — only translate\n- If a technical term has no translation, keep it in English"⟩

/-- The translation human message used when reference context exists. -/
def transHumanWithRef (context text lang : Str) : Msg :=
  ⟨.human, strOf "Use this reference context for correct technical terminology:\n\n"
    ++ context
    ++ strOf "\n\nNow translate the following text into "
    ++ lang
    ++ strOf ":\n\n"
    ++ text
    ++ strOf "\n\nProvide ONLY the translation, nothing else."⟩

/-- The translation human message used when no context chunk qualifies. -/
def transHumanPlain (text lang : Str) : Msg :=
  ⟨.human, strOf "Translate the following research paper text into "
    ++ lang
    ++ strOf ":\n\n"
    ++ text
    ++ strOf "\n\nProvide ONLY the translation, nothing else."⟩

/-- Result dictionary of `Translator.translate`. -/
structure TransResult where
  translation : Str
  target_language : Str
  context_used : List RetChunk
deriving DecidableEq, Repr

/-- `Translator.translate(text, target_language, use_context)`.
Second component: the queries issued to the retriever; third: the
message lists dispatched to the generation port. -/
def translateText (env : RagEnv) (text targetLanguage : Str)
    (useContext : Bool) :
    Except CoreErr TransResult × List Str × List (List Msg) :=
  if pyBlank text then (.error .invalidInput, [], [])
  else if targetLanguage ∉ SUPPORTED_LANGUAGES then
    (.error .unsupportedLanguage, [], [])
  else
    let rlog := if useContext then [text.take 200] else []
    let chunks :=
      if useContext then (env.retrieveWithScores (text.take 200)).1 else []
    let context :=
      if chunks ≠ [] then
        joinSep (strOf "\n\n") ((chunks.take 2).enum.map refLine)
      else []
    let hum :=
      if context ≠ [] then transHumanWithRef context text targetLanguage
      else transHumanPlain text targetLanguage
    let msgs := [transSystemMsg targetLanguage, hum]
    (.ok ⟨env.generate msgs, targetLanguage, chunks⟩, rlog, [msgs])

/-! ## Theorems -/

/-- Looking up a key just appended to an association list in which it was
absent finds the appended value. -/
theorem lookup_append_single {β : Type} (l : List (Str × β)) (name : Str)
    (v : β) (h : l.lookup name = none) :
    (l ++ [(name, v)]).lookup name = some v := by
  induction l with
  | nil => simp [List.lookup]
  | cons a l ih =>
    rw [List.lookup] at h
    cases hk : (name == a.1) with
    | true => simp [hk] at h
    | false =>
      rw [hk] at h
      simpa [List.lookup, hk] using ih h

/-- Claim C9: `ensure_collection` (the source's `create_collection`,
backed by `get_or_create_collection`) is idempotent: a second call with
the same name returns the same client state and the same handle — it is
a no-op and cannot fail (the operation is total) — and the collection's
count after the first call equals the handle's size, hence is unchanged
by the second call. -/
theorem claim_C9_ensure_collection_idempotent (st : VSState) (name : Str) :
    getOrCreateCollection (getOrCreateCollection st name).1 name
      = getOrCreateCollection st name
    ∧ getCollectionCount (getOrCreateCollection st name).1 name
      = ((getOrCreateCollection st name).2).length := by
  cases h : lookupCollection st name with
  | some es =>
    constructor
    · simp [getOrCreateCollection, h]
    · simp [getOrCreateCollection, getCollectionCount, h]
  | none =>
    have h2 : lookupCollection ⟨st.collections ++ [(name, [])]⟩ name
        = some [] := by
      unfold lookupCollection at h ⊢
      exact lookup_append_single _ _ _ h
    constructor
    · simp [getOrCreateCollection, h, h2]
    · simp [getOrCreateCollection, getCollectionCount, h, h2]

/-- Claim C10: on a never-created collection, `get_collection_count`
returns `0` and `collection_exists` returns `False` (both are total
functions — the source's bare `except:` handlers absorb the client's
missing-collection error); and `collection_exists` holds exactly when
the collection exists and holds at least one vector. -/
theorem claim_C10_missing_collection_defaults (st : VSState) (name : Str) :
    (lookupCollection st name = none →
      getCollectionCount st name = 0 ∧ collectionExists st name = false)
    ∧ (collectionExists st name = true ↔
        ∃ es, lookupCollection st name = some es ∧ 0 < es.length) := by
  cases h : lookupCollection st name with
  | some es => simp [getCollectionCount, collectionExists, h]
  | none => simp [getCollectionCount, collectionExists, h]

/-- Witness for C10 at a concrete client state with no collections. -/
theorem claim_C10_witness :
    getCollectionCount ⟨[]⟩ (strOf "missing") = 0
    ∧ collectionExists ⟨[]⟩ (strOf "missing") = false :=
  (claim_C10_missing_collection_defaults ⟨[]⟩ (strOf "missing")).1 (by decide)

/-- Counterexample to claim C2 as stated: the claim says
`search(collection, query_vector, k)` fails with `CollectionNotFound`
when the named collection was never created.  In the source,
`VectorStore.search` obtains the collection through `create_collection` —
ChromaDB's `get_or_create_collection` — so it cannot fail at all: on the
empty client and a never-created name it silently creates the empty
collection and returns a normal empty result. -/
theorem claim_C2_counterexample :
    vsSearch (fun _ _ => 0) ⟨[]⟩ (strOf "papers") [1] 5
      = (⟨[(strOf "papers", [])]⟩, []) := by decide

/-- Claim C2, amended: `search` on a never-created collection does not
fail — it implicitly creates the empty collection and returns an empty
result, exactly as it returns an empty result for an
existing-but-empty collection. -/
theorem claim_C2_amended (dist : List ℚ → List ℚ → ℚ) (st : VSState)
    (name : Str) (qemb : List ℚ) (k : Nat) :
    (lookupCollection st name = none →
      vsSearch dist st name qemb k = (⟨st.collections ++ [(name, [])]⟩, []))
    ∧ (lookupCollection st name = some [] →
      vsSearch dist st name qemb k = (st, [])) := by
  constructor <;> intro h <;>
    simp [vsSearch, getOrCreateCollection, h, queryCollection,
      List.insertionSort]

/-- Witness for the amended C2 on a concrete empty client and a concrete
single-collection client whose collection is empty. -/
theorem claim_C2_witness :
    vsSearch (fun _ _ => 0) ⟨[]⟩ (strOf "c") [1] 5 = (⟨[(strOf "c", [])]⟩, [])
    ∧ vsSearch (fun _ _ => 0) ⟨[(strOf "c", [])]⟩ (strOf "c") [1] 5
      = (⟨[(strOf "c", [])]⟩, []) :=
  ⟨(claim_C2_amended _ ⟨[]⟩ (strOf "c") [1] 5).1 (by decide),
   (claim_C2_amended _ ⟨[(strOf "c", [])]⟩ (strOf "c") [1] 5).2 (by decide)⟩

/-- Counterexample to claim C4 as stated: the claim says each search
entry's `similarity` equals `1 - distance`.  The source computes
`round(1 - distance, 4)`: for a stored vector at cosine distance
`1/32 = 0.03125` the true `1 - distance` is `31/32 = 0.96875`, but the
returned similarity is `0.9688 = 1211/1250` (four decimal places, tie
rounded to even). -/
theorem claim_C4_counterexample :
    ((vsSearch (fun _ _ => 1/32)
        ⟨[(strOf "c", [⟨strOf "id1", [1], strOf "t1", strOf "m"⟩])]⟩
        (strOf "c") [1] 5).2.map
      (fun h_ => (h_.distance, h_.similarity)))
      = [(1/32, 1211/1250)]
    ∧ (1 : ℚ) - 1/32 ≠ 1211/1250 := by
  have hr4 : round4 (1 - 1/32) = 1211/1250 := by
    norm_num [round4, roundHalfEven, Int.fract]
  constructor
  · simp only [vsSearch, getOrCreateCollection, lookupCollection, List.lookup,
      queryCollection, List.insertionSort, List.orderedInsert, List.map,
      List.take, hr4, strOf]
  · norm_num

/-- Claim C4, amended: every `search` result has at most `k` entries,
is ordered by ascending distance under the collection's (cosine)
metric — most similar first — and each entry's similarity equals
`1 - distance` rounded to four decimal places (Python's
`round(1 - distance, 4)`). -/
theorem claim_C4_amended (dist : List ℚ → List ℚ → ℚ) (st : VSState)
    (name : Str) (qemb : List ℚ) (k : Nat) :
    (vsSearch dist st name qemb k).2.length ≤ k
    ∧ (vsSearch dist st name qemb k).2.Pairwise
        (fun a b => a.distance ≤ b.distance)
    ∧ ∀ h_ ∈ (vsSearch dist st name qemb k).2,
        h_.similarity = round4 (1 - h_.distance) := by
  haveI htot : IsTotal (VSEntry × ℚ) (fun a b => a.2 ≤ b.2) :=
    ⟨fun a b => le_total a.2 b.2⟩
  haveI htr : IsTrans (VSEntry × ℚ) (fun a b => a.2 ≤ b.2) :=
    ⟨fun _ _ _ hab hbc => le_trans hab hbc⟩
  refine ⟨?_, ?_, ?_⟩
  · simp only [vsSearch, queryCollection, List.length_map, List.length_take]
    omega
  · have hs : List.Sorted (fun a b : VSEntry × ℚ => a.2 ≤ b.2)
        (List.insertionSort (fun a b => a.2 ≤ b.2)
          (((getOrCreateCollection st name).2).map
            (fun e => (e, dist e.emb qemb)))) :=
      List.sorted_insertionSort _ _
    have ht : List.Sorted (fun a b : VSEntry × ℚ => a.2 ≤ b.2)
        (queryCollection dist (getOrCreateCollection st name).2 qemb k) :=
      List.Pairwise.sublist (List.take_sublist _ _) hs
    simp only [vsSearch, List.pairwise_map]
    exact ht.imp (fun h => h)
  · intro h_ hmem
    simp only [vsSearch, List.mem_map] at hmem
    obtain ⟨p, _, rfl⟩ := hmem
    rfl

/-- Witness for the amended C4 at a concrete two-entry collection with a
distance function that reverses insertion order. -/
theorem claim_C4_witness :
    (vsSearch
        (fun a _ => if a = [1] then 3/4 else 1/4)
        ⟨[(strOf "c",
          [⟨strOf "i1", [1], strOf "t1", strOf "m"⟩,
           ⟨strOf "i2", [2], strOf "t2", strOf "m"⟩])]⟩
        (strOf "c") [9] 1).2.length ≤ 1
    ∧ (vsSearch
        (fun a _ => if a = [1] then 3/4 else 1/4)
        ⟨[(strOf "c",
          [⟨strOf "i1", [1], strOf "t1", strOf "m"⟩,
           ⟨strOf "i2", [2], strOf "t2", strOf "m"⟩])]⟩
        (strOf "c") [9] 1).2.Pairwise
        (fun a b => a.distance ≤ b.distance)
    ∧ ∀ h_ ∈ (vsSearch
        (fun a _ => if a = [1] then 3/4 else 1/4)
        ⟨[(strOf "c",
          [⟨strOf "i1", [1], strOf "t1", strOf "m"⟩,
           ⟨strOf "i2", [2], strOf "t2", strOf "m"⟩])]⟩
        (strOf "c") [9] 1).2,
        h_.similarity = round4 (1 - h_.distance) :=
  claim_C4_amended _ _ _ _ _

/-- Claim C1: the relevance gate of `answer_question`.  When the average
similarity returned by retrieval is strictly below `0.25`, the call
short-circuits: it returns the fixed "no relevant information" answer
with an empty `context_used` list and dispatches nothing to the
generation port.  At or above `0.25` it builds the QA prompt from the
formatted context and dispatches exactly one generation call. -/
theorem claim_C1_answer_gate (env : RagEnv) (question : Str)
    (chunks : List RetChunk) (avg : ℚ)
    (hqb : pyBlank question = false)
    (hr : env.retrieveWithScores question = (chunks, avg)) :
    (avg < 1/4 →
      answerQuestion env question =
        (.ok ⟨NO_RELEVANT_ANSWER, [], avg⟩, []))
    ∧ (1/4 ≤ avg →
      answerQuestion env question =
        (.ok ⟨env.generate
            [qaSystemMsg,
             qaHumanMsg (env.retrieveAsContext question) question],
          chunks, avg⟩,
         [[qaSystemMsg,
           qaHumanMsg (env.retrieveAsContext question) question]])) := by
  constructor <;> intro h
  · have h4 : avg < 4⁻¹ := by rwa [one_div] at h
    simp [answerQuestion, hqb, hr, h4]
  · have h4 : ¬ (avg < 4⁻¹) := by
      rw [not_lt, ← one_div]
      exact h
    simp [answerQuestion, hqb, hr, h4]

/-- Witness for C1: a concrete environment with average similarity `0`
short-circuits with no generation call; one with average similarity
`1/2` dispatches the generation call and returns its output. -/
theorem claim_C1_witness :
    answerQuestion
      ⟨fun _ => ([], 0), fun _ => strOf "ctx", fun _ => strOf "gen"⟩
      (strOf "q")
      = (.ok ⟨NO_RELEVANT_ANSWER, [], 0⟩, [])
    ∧ answerQuestion
      ⟨fun _ => ([⟨strOf "c", 1⟩], 1/2), fun _ => strOf "ctx",
        fun _ => strOf "gen"⟩
      (strOf "q")
      = (.ok ⟨strOf "gen", [⟨strOf "c", 1⟩], 1/2⟩,
         [[qaSystemMsg, qaHumanMsg (strOf "ctx") (strOf "q")]]) :=
  ⟨(claim_C1_answer_gate _ (strOf "q") [] 0 (by decide) rfl).1 (by norm_num),
   (claim_C1_answer_gate _ (strOf "q") [⟨strOf "c", 1⟩] (1/2) (by decide)
     rfl).2 (by norm_num)⟩

/-- Claim C6: `translate` validation.  Blank (empty or all-whitespace)
text fails with `InvalidInput` for every language argument — the
emptiness check runs first, before the language is examined — and
non-blank text with a language outside the fixed
`SUPPORTED_LANGUAGES` list fails with `UnsupportedLanguage`. -/
theorem claim_C6_translate_validation (env : RagEnv)
    (text lang : Str) (uc : Bool) :
    (pyBlank text = true →
      translateText env text lang uc = (.error .invalidInput, [], []))
    ∧ (pyBlank text = false → lang ∉ SUPPORTED_LANGUAGES →
      translateText env text lang uc =
        (.error .unsupportedLanguage, [], [])) := by
  constructor
  · intro h
    simp [translateText, h]
  · intro h1 h2
    simp [translateText, h1, h2]

/-- Witness for C6, the spec's own scenario: `translate("", "French")`
fails with `InvalidInput` (the language being supported does not bypass
the emptiness check) and `translate("text", "Klingon")` fails with
`UnsupportedLanguage`. -/
theorem claim_C6_witness :
    translateText
      ⟨fun _ => ([], 0), fun _ => strOf "ctx", fun _ => strOf "gen"⟩
      (strOf "") (strOf "French") true
      = (.error .invalidInput, [], [])
    ∧ translateText
      ⟨fun _ => ([], 0), fun _ => strOf "ctx", fun _ => strOf "gen"⟩
      (strOf "text") (strOf "Klingon") true
      = (.error .unsupportedLanguage, [], []) :=
  ⟨(claim_C6_translate_validation _ (strOf "") (strOf "French") true).1
      (by decide),
   (claim_C6_translate_validation _ (strOf "text") (strOf "Klingon") true).2
      (by decide) (by decide)⟩

/-- The reference-context string built from a non-empty chunk list is
non-empty (each reference line starts with a literal bracket). -/
theorem refs_context_ne_nil (chunks : List RetChunk) (h : chunks ≠ []) :
    joinSep (strOf "\n\n") ((chunks.take 2).enum.map refLine) ≠ [] := by
  have hcons : ∀ (p : ℕ × RetChunk), ∃ t, refLine p = '[' :: t := by
    intro p
    refine ⟨strOf "Reference " ++ (natToStr (p.1 + 1) ++ (strOf "]: " ++ p.2.text)), ?_⟩
    have hb : strOf "[Reference " = '[' :: strOf "Reference " := by decide
    simp [refLine, hb]
  cases chunks with
  | nil => exact absurd rfl h
  | cons c cs =>
    cases cs with
    | nil =>
      obtain ⟨t, ht⟩ := hcons (0, c)
      show refLine (0, c) ≠ []
      rw [ht]
      exact List.cons_ne_nil _ _
    | cons c2 cs2 =>
      obtain ⟨t, ht⟩ := hcons (0, c)
      show refLine (0, c) ++ strOf "\n\n" ++ refLine (1, c2) ≠ []
      rw [ht]
      simp

/-- Claim C7: the context path of `translate` with `use_context`.  The
retriever is queried exactly once, with only the first 200 characters of
the input; when retrieval returns no chunks, the dispatched prompt is the
plain template with no reference section; when it returns chunks, the
dispatched prompt embeds reference lines built from at most the top two
scored chunks (`chunks[:2]`). -/
theorem claim_C7_translate_context (env : RagEnv) (text lang : Str)
    (hb : pyBlank text = false) (hl : lang ∈ SUPPORTED_LANGUAGES) :
    (translateText env text lang true).2.1 = [text.take 200]
    ∧ ((env.retrieveWithScores (text.take 200)).1 = [] →
        translateText env text lang true =
          (.ok ⟨env.generate [transSystemMsg lang, transHumanPlain text lang],
            lang, []⟩,
           [text.take 200],
           [[transSystemMsg lang, transHumanPlain text lang]]))
    ∧ (∀ chunks avg,
        env.retrieveWithScores (text.take 200) = (chunks, avg) →
        chunks ≠ [] →
        translateText env text lang true =
          (.ok ⟨env.generate [transSystemMsg lang,
              transHumanWithRef
                (joinSep (strOf "\n\n") ((chunks.take 2).enum.map refLine))
                text lang],
            lang, chunks⟩,
           [text.take 200],
           [[transSystemMsg lang,
             transHumanWithRef
               (joinSep (strOf "\n\n") ((chunks.take 2).enum.map refLine))
               text lang]])) := by
  refine ⟨?_, ?_, ?_⟩
  · simp [translateText, hb, hl]
  · intro h0
    simp [translateText, hb, hl, h0]
  · intro chunks avg hr hne
    have hctx := refs_context_ne_nil chunks hne
    simp [translateText, hb, hl, hr, hne, hctx]

/-- Witness for C7 at a concrete environment: a 300-character input is
retrieved with its 200-character prefix only; an environment returning no
chunks gets the plain prompt, one returning three chunks gets a prompt
referencing only the first two. -/
theorem claim_C7_witness :
    (translateText
        ⟨fun _ => ([], 0), fun _ => strOf "ctx", fun _ => strOf "gen"⟩
        (List.replicate 300 'a') (strOf "French") true).2.1
      = [(List.replicate 300 'a').take 200]
    ∧ translateText
        ⟨fun _ => ([], 0), fun _ => strOf "ctx", fun _ => strOf "gen"⟩
        (strOf "text") (strOf "French") true
      = (.ok ⟨strOf "gen", strOf "French", []⟩,
         [(strOf "text").take 200],
         [[transSystemMsg (strOf "French"),
           transHumanPlain (strOf "text") (strOf "French")]])
    ∧ translateText
        ⟨fun _ => ([⟨strOf "c1", 1⟩, ⟨strOf "c2", 1⟩, ⟨strOf "c3", 1⟩], 1),
          fun _ => strOf "ctx", fun _ => strOf "gen"⟩
        (strOf "text") (strOf "French") true
      = (.ok ⟨strOf "gen", strOf "French",
           [⟨strOf "c1", 1⟩, ⟨strOf "c2", 1⟩, ⟨strOf "c3", 1⟩]⟩,
         [(strOf "text").take 200],
         [[transSystemMsg (strOf "French"),
           transHumanWithRef
             (joinSep (strOf "\n\n")
               (((([⟨strOf "c1", (1 : ℚ)⟩, ⟨strOf "c2", 1⟩,
                  ⟨strOf "c3", 1⟩] : List RetChunk).take 2).enum).map refLine))
             (strOf "text") (strOf "French")]]) :=
  ⟨(claim_C7_translate_context _ (List.replicate 300 'a') (strOf "French")
      (by decide) (by decide)).1,
   (claim_C7_translate_context _ (strOf "text") (strOf "French")
      (by decide) (by decide)).2.1 rfl,
   (claim_C7_translate_context _ (strOf "text") (strOf "French")
      (by decide) (by decide)).2.2 _ 1 rfl (by simp)⟩

/-- Claim C5, amended: `retrieve_with_scores` returns average similarity
exactly `0.0` on an empty retrieval result, and on a non-empty result the
mean of the per-chunk similarities rounded to four decimal places
(`round(avg, 4)` in the source — not the raw mean); `is_relevant`
holds exactly when that returned average is at least the threshold, and
is therefore `False` whenever the average is `0.0` and the threshold is
positive. -/
theorem claim_C5_amended (env : RetrEnv) (cfg : RetrCfg) (st : VSState)
    (query : Str) (threshold : ℚ) (chunks : List SearchHit) (avg : ℚ)
    (h : retrieveWithScores env cfg st query = .ok (chunks, avg)) :
    (chunks = [] → avg = 0)
    ∧ (chunks ≠ [] →
        avg = round4 ((chunks.map (fun c => c.similarity)).sum / chunks.length))
    ∧ isRelevant env cfg st query threshold = .ok (decide (threshold ≤ avg))
    ∧ (avg = 0 → 0 < threshold →
        isRelevant env cfg st query threshold = .ok false) := by
  have hrel : isRelevant env cfg st query threshold
      = .ok (decide (threshold ≤ avg)) := by
    rw [isRelevant, h]
    rfl
  have hcore : (chunks = [] → avg = 0)
      ∧ (chunks ≠ [] →
        avg = round4 ((chunks.map (fun c => c.similarity)).sum / chunks.length)) := by
    cases hret : retrieve env cfg st query with
    | error e =>
      rw [retrieveWithScores, hret] at h
      exact absurd h (by simp [Except.map])
    | ok hits =>
      rw [retrieveWithScores, hret] at h
      simp only [Except.map, Except.ok.injEq] at h
      by_cases hh : hits = []
      · rw [if_pos hh] at h
        injection h with h1 h2
        constructor
        · intro _
          exact h2.symm
        · intro hne
          exact absurd h1.symm hne
      · rw [if_neg hh] at h
        injection h with h1 h2
        constructor
        · intro h0
          exact absurd (h1.trans h0) hh
        · intro _
          rw [← h2, h1]
  refine ⟨hcore.1, hcore.2, hrel, ?_⟩
  intro h0 hpos
  rw [hrel, h0]
  congr 1
  exact decide_eq_false (not_le.mpr hpos)

/-- Counterexample to claim C5 as stated: the claim says the average over
a non-empty result is the mean of the per-chunk similarities.  The source
returns `round(mean, 4)`.  On a four-entry collection with similarities
`[1/2, 1/4, 1/4, 1/8]` the mean is `9/32 = 0.28125`, but the returned
average is `0.2812 = 703/2500` (tie rounded to even), which differs. -/
theorem claim_C5_counterexample :
    retrieveWithScores
      ⟨fun _ => [0],
       fun a _ => if a.length = 1 then 1/2 else if a.length = 2 then 3/4
         else if a.length = 3 then 3/4 else 7/8⟩
      ⟨strOf "research_papers", 5⟩
      ⟨[(strOf "research_papers",
         [⟨strOf "i1", [0], strOf "t1", strOf "m"⟩,
          ⟨strOf "i2", [0, 0], strOf "t2", strOf "m"⟩,
          ⟨strOf "i3", [0, 0, 0], strOf "t3", strOf "m"⟩,
          ⟨strOf "i4", [0, 0, 0, 0], strOf "t4", strOf "m"⟩])]⟩
      (strOf "q")
      = .ok ([⟨strOf "t1", strOf "m", 1/2, 1/2⟩,
              ⟨strOf "t2", strOf "m", 3/4, 1/4⟩,
              ⟨strOf "t3", strOf "m", 3/4, 1/4⟩,
              ⟨strOf "t4", strOf "m", 7/8, 1/8⟩], 703/2500)
    ∧ ((1:ℚ)/2 + 1/4 + 1/4 + 1/8) / 4 = 9/32
    ∧ (703/2500 : ℚ) ≠ 9/32 := by
  refine ⟨?_, by norm_num, by norm_num⟩
  have hle1 : (3:ℚ)/4 ≤ 7/8 := by norm_num
  have hle2 : (3:ℚ)/4 ≤ 3/4 := le_refl _
  have hle3 : (1:ℚ)/2 ≤ 3/4 := by norm_num
  have h1 : round4 (1 - 1/2) = 1/2 := by
    norm_num [round4, roundHalfEven, Int.fract]
  have h2 : round4 (1 - 3/4) = 1/4 := by
    norm_num [round4, roundHalfEven, Int.fract]
  have h3 : round4 (1 - 7/8) = 1/8 := by
    norm_num [round4, roundHalfEven, Int.fract]
  have hq : ¬ (strOf "q" = [] ∨ pyStrip (strOf "q") = []) := by decide
  have h1b : round4 ((1:ℚ)/2) = 1/2 := by
    norm_num [round4, roundHalfEven, Int.fract]
  have h2b : round4 ((1:ℚ)/4) = 1/4 := by
    norm_num [round4, roundHalfEven, Int.fract]
  have h3b : round4 ((1:ℚ)/8) = 1/8 := by
    norm_num [round4, roundHalfEven, Int.fract]
  have hfin : round4 ((9:ℚ)/32) = 703/2500 := by
    norm_num [round4, roundHalfEven, Int.fract]
  simp only [retrieveWithScores, retrieve, hq, vsSearch, getOrCreateCollection,
    lookupCollection, List.lookup, beq_self_eq_true, queryCollection,
    List.insertionSort, List.orderedInsert, hle1, hle2, hle3, if_true,
    List.map, List.take, h1, h2, h3, Except.map, List.sum_cons, List.sum_nil,
    List.length_cons, List.length_nil, Nat.cast_ofNat, if_false, ite_true,
    ite_false]
  norm_num [h1b, h2b, h3b, hfin]
  exact List.cons_ne_nil _ _

/-- Witness for the amended C5 at a concrete never-populated collection:
retrieval returns the empty result with average `0.0`, so `is_relevant`
at the positive threshold `1/3` returns `False`. -/
theorem claim_C5_witness :
    (([] : List SearchHit) = [] → (0 : ℚ) = 0)
    ∧ (([] : List SearchHit) ≠ [] →
        (0 : ℚ) = round4 ((([] : List SearchHit).map
          (fun c => c.similarity)).sum / ([] : List SearchHit).length))
    ∧ isRelevant ⟨fun _ => [0], fun _ _ => 0⟩ ⟨strOf "research_papers", 5⟩
        ⟨[]⟩ (strOf "q") (1/3)
        = .ok (decide ((1/3 : ℚ) ≤ 0))
    ∧ ((0 : ℚ) = 0 → 0 < (1/3 : ℚ) →
        isRelevant ⟨fun _ => [0], fun _ _ => 0⟩ ⟨strOf "research_papers", 5⟩
          ⟨[]⟩ (strOf "q") (1/3) = .ok false) := by
  have hq : ¬ (strOf "q" = [] ∨ pyStrip (strOf "q") = []) := by decide
  have h : retrieveWithScores ⟨fun _ => [0], fun _ _ => 0⟩
      ⟨strOf "research_papers", 5⟩ ⟨[]⟩ (strOf "q") = .ok ([], 0) := by
    simp [retrieveWithScores, retrieve, hq, vsSearch, getOrCreateCollection,
      lookupCollection, List.lookup, queryCollection, List.insertionSort,
      Except.map]
  exact claim_C5_amended _ _ _ _ (1/3) [] 0 h

/-- Claim C8: for every successful `split`, each produced chunk records
`total_chunks` equal to the number of chunks of that call, the
`chunk_index` values are `0`-based and contiguous in original text order,
and each chunk's `id` is `f"{source_name}_chunk_{chunk_index}"`. -/
theorem claim_C8_chunk_metadata (cfg : ChunkCfg) (text sourceName : Str)
    (chunks : List ChunkRec)
    (h : chunkerSplit cfg text sourceName = .ok chunks) :
    (∀ c ∈ chunks,
      c.metadata.total_chunks = chunks.length
      ∧ c.id = sourceName ++ strOf "_chunk_" ++ natToStr c.metadata.chunk_index)
    ∧ chunks.map (fun c => c.metadata.chunk_index)
        = List.range chunks.length := by
  rw [chunkerSplit] at h
  by_cases hb : text = [] ∨ pyStrip text = []
  · rw [if_pos hb] at h
    exact absurd h (by simp)
  · rw [if_neg hb] at h
    injection h with h
    subst h
    constructor
    · intro c hc
      simp only [List.mem_map] at hc
      obtain ⟨p, _, rfl⟩ := hc
      refine ⟨?_, rfl⟩
      simp [List.enum_length]
    · simp only [List.map_map, List.length_map, List.enum_length]
      exact List.enum_map_fst _

/-- Witness for C8 at a concrete split producing two chunks. -/
theorem claim_C8_witness :
    (∀ c ∈ [ChunkRec.mk (strOf "doc_chunk_0") (strOf "a")
               ⟨strOf "doc", 0, 2, 1⟩,
             ChunkRec.mk (strOf "doc_chunk_1") (strOf " xxxxx")
               ⟨strOf "doc", 1, 2, 6⟩],
      c.metadata.total_chunks
          = [ChunkRec.mk (strOf "doc_chunk_0") (strOf "a")
               ⟨strOf "doc", 0, 2, 1⟩,
             ChunkRec.mk (strOf "doc_chunk_1") (strOf " xxxxx")
               ⟨strOf "doc", 1, 2, 6⟩].length
      ∧ c.id = strOf "doc" ++ strOf "_chunk_" ++ natToStr c.metadata.chunk_index)
    ∧ [ChunkRec.mk (strOf "doc_chunk_0") (strOf "a")
         ⟨strOf "doc", 0, 2, 1⟩,
       ChunkRec.mk (strOf "doc_chunk_1") (strOf " xxxxx")
         ⟨strOf "doc", 1, 2, 6⟩].map (fun c => c.metadata.chunk_index)
      = List.range
          [ChunkRec.mk (strOf "doc_chunk_0") (strOf "a")
             ⟨strOf "doc", 0, 2, 1⟩,
           ChunkRec.mk (strOf "doc_chunk_1") (strOf " xxxxx")
             ⟨strOf "doc", 1, 2, 6⟩].length :=
  claim_C8_chunk_metadata ⟨5, 2⟩ (strOf "a xxxxx") (strOf "doc") _ (by rfl)

/-- Stripping on the left does not lengthen a string. -/
theorem pyStripLeft_length_le (s : Str) :
    (pyStripLeft s).length ≤ s.length := by
  induction s with
  | nil => simp [pyStripLeft]
  | cons c cs ih =>
    by_cases h : pyIsSpace c
    · simp only [pyStripLeft, h, if_true]
      exact le_trans ih (by simp)
    · simp [pyStripLeft, h]

/-- `str.strip()` does not lengthen a string. -/
theorem pyStrip_length_le (s : Str) : (pyStrip s).length ≤ s.length := by
  unfold pyStrip
  calc (pyStripLeft (pyStripLeft s).reverse).reverse.length
      = (pyStripLeft (pyStripLeft s).reverse).length := by simp
    _ ≤ (pyStripLeft s).reverse.length := pyStripLeft_length_le _
    _ = (pyStripLeft s).length := by simp
    _ ≤ s.length := pyStripLeft_length_le _

/-- `containsSub` is occurrence as a contiguous substring. -/
theorem containsSub_iff (q t : Str) :
    containsSub q t = true ↔ ∃ u v, t = u ++ q ++ v := by
  induction t with
  | nil =>
    simp only [containsSub, List.isEmpty_iff]
    constructor
    · intro h
      exact ⟨[], [], by simp [h]⟩
    · rintro ⟨u, v, huv⟩
      have hlen := congrArg List.length huv
      simp only [List.length_nil, List.length_append] at hlen
      exact List.eq_nil_of_length_eq_zero (by omega)
  | cons c rest ih =>
    simp only [containsSub, Bool.or_eq_true]
    constructor
    · rintro (hp | hr)
      · obtain ⟨w, hw⟩ := List.isPrefixOf_iff_prefix.mp hp
        exact ⟨[], w, by simp [hw.symm]⟩
      · obtain ⟨u, v, huv⟩ := ih.mp hr
        exact ⟨c :: u, v, by simp [huv]⟩
    · rintro ⟨u, v, huv⟩
      cases u with
      | nil =>
        left
        exact List.isPrefixOf_iff_prefix.mpr ⟨v, by simpa using huv.symm⟩
      | cons c2 u2 =>
        right
        simp only [List.cons_append, List.cons.injEq] at huv
        exact ih.mpr ⟨u2, v, huv.2⟩

/-- Occurrence is monotone under taking a superstring. -/
theorem containsSub_mono {q t1 t2 : Str} (hinf : t1 <:+: t2)
    (h : containsSub q t1 = true) : containsSub q t2 = true := by
  obtain ⟨a, b, hab⟩ := hinf
  obtain ⟨u, v, huv⟩ := (containsSub_iff q t1).mp h
  refine (containsSub_iff q t2).mpr ⟨a ++ u, v ++ b, ?_⟩
  rw [← hab, huv]
  simp

/-- Absence of a substring is inherited by substrings. -/
theorem not_containsSub_mono {q t1 t2 : Str} (hinf : t1 <:+: t2)
    (h : containsSub q t2 = false) : containsSub q t1 = false := by
  cases hc : containsSub q t1 with
  | false => rfl
  | true => exact absurd (containsSub_mono hinf hc) (by simp [h])

/-- Dropping the first character preserves the infix relation. -/
theorem infix_drop_one {t1 t2 : Str} (hinf : t1 <:+: t2) :
    t1.drop 1 <:+: t2.drop 1 := by
  obtain ⟨a, b, hab⟩ := hinf
  cases a with
  | nil =>
    cases t1 with
    | nil => simp
    | cons x xs =>
      refine ⟨[], b, ?_⟩
      rw [← hab]
      simp
  | cons y ys =>
    have h1 : t1.drop 1 <:+: t1 := (List.drop_suffix 1 t1).isInfix
    have h2 : t1 <:+: t2.drop 1 := by
      refine ⟨ys, b, ?_⟩
      rw [← hab]
      simp
    exact h1.trans h2

/-- `leadOnly` is inherited by substrings. -/
theorem leadOnly_mono {q t1 t2 : Str} (hinf : t1 <:+: t2)
    (h : leadOnly q t2) : leadOnly q t1 :=
  not_containsSub_mono (infix_drop_one hinf) h

/-- A string not containing `q` at all trivially satisfies `leadOnly`. -/
theorem leadOnly_of_not_contains {q t : Str}
    (h : containsSub q t = false) : leadOnly q t :=
  not_containsSub_mono (List.drop_subset 1 t |> fun _ => (List.drop_suffix 1 t).isInfix) h

/-- An occurrence of `"\n\n"` yields an occurrence of `"\n"` past the
first character. -/
theorem contains_nl_drop_of_contains_nlnl {t : Str}
    (h : containsSub (strOf "\n\n") t = true) :
    containsSub (strOf "\n") (t.drop 1) = true := by
  obtain ⟨u, v, huv⟩ := (containsSub_iff _ t).mp h
  have hq : strOf "\n\n" = ['\n', '\n'] := by decide
  have hnl : strOf "\n" = ['\n'] := by decide
  rw [hq] at huv
  refine (containsSub_iff _ _).mpr ?_
  cases u with
  | nil =>
    refine ⟨[], v, ?_⟩
    rw [huv, hnl]
    simp
  | cons c u2 =>
    refine ⟨u2 ++ ['\n'], v, ?_⟩
    rw [huv, hnl]
    simp

/-- If `"\n"` occurs at most leading, `"\n\n"` does not occur at all. -/
theorem not_contains_nlnl_of_leadOnly_nl {t : Str}
    (h : leadOnly (strOf "\n") t) :
    containsSub (strOf "\n\n") t = false := by
  cases hc : containsSub (strOf "\n\n") t with
  | false => rfl
  | true =>
    exact absurd (contains_nl_drop_of_contains_nlnl hc) (by simp [leadOnly] at h; simp [h])

/-- A fueled split always produces at least one part. -/
theorem splitPartsFuel_ne_nil (sep : Str) :
    ∀ (fuel : Nat) (acc t : Str), splitPartsFuel sep fuel acc t ≠ [] := by
  intro fuel
  induction fuel with
  | zero =>
    intro acc t
    simp [splitPartsFuel]
  | succ fuel ih =>
    intro acc t
    cases t with
    | nil => simp [splitPartsFuel]
    | cons c rest =>
      by_cases h : sep ≠ [] ∧ sep.isPrefixOf (c :: rest)
      · simp [splitPartsFuel, h]
      · rw [splitPartsFuel, if_neg h]
        exact ih _ _

/-- The parts of a fueled split, joined by the separator, reconstruct
the accumulated prefix plus the remaining input (`re.split` loses no
characters). -/
theorem joinSep_splitPartsFuel (sep : Str) :
    ∀ (fuel : Nat) (acc t : Str),
      joinSep sep (splitPartsFuel sep fuel acc t) = acc.reverse ++ t := by
  intro fuel
  induction fuel with
  | zero =>
    intro acc t
    simp [splitPartsFuel, joinSep]
  | succ fuel ih =>
    intro acc t
    cases t with
    | nil => simp [splitPartsFuel, joinSep]
    | cons c rest =>
      by_cases h : sep ≠ [] ∧ sep.isPrefixOf (c :: rest)
      · rw [splitPartsFuel, if_pos h]
        obtain ⟨w, hw⟩ := List.isPrefixOf_iff_prefix.mp h.2
        cases hps : splitPartsFuel sep fuel [] ((c :: rest).drop sep.length) with
        | nil => exact absurd hps (splitPartsFuel_ne_nil sep fuel [] _)
        | cons q qs =>
          have hjoin := ih [] ((c :: rest).drop sep.length)
          rw [hps] at hjoin
          simp only [List.reverse_nil, List.nil_append] at hjoin
          show acc.reverse ++ sep ++ joinSep sep (q :: qs) = acc.reverse ++ (c :: rest)
          rw [hjoin, ← hw, List.drop_left]
          simp
      · rw [splitPartsFuel, if_neg h, ih]
        simp

/-- A string whose list-reversal history rules out every separator
occurrence contains no separator occurrence.  (`acc` is scanned text in
reverse; every position inside it was checked against the full remaining
input, so no occurrence can start there.) -/
theorem emit_free (sep : Str) (hsep : sep ≠ []) (acc t : Str)
    (hinv : ∀ u v, acc.reverse = u ++ v → v ≠ [] →
      sep.isPrefixOf (v ++ t) = false) :
    containsSub sep acc.reverse = false := by
  cases hc : containsSub sep acc.reverse with
  | false => rfl
  | true =>
    obtain ⟨u, v, huv⟩ := (containsSub_iff _ _).mp hc
    have h1 : sep.isPrefixOf ((sep ++ v) ++ t) = false := by
      refine hinv u (sep ++ v) ?_ ?_
      · rw [huv]
        simp
      · simp [List.append_eq_nil, hsep]
    have h2 : sep.isPrefixOf ((sep ++ v) ++ t) = true :=
      List.isPrefixOf_iff_prefix.mpr ⟨v ++ t, by simp⟩
    rw [h1] at h2
    exact Bool.noConfusion h2

/-- No part produced by the fueled split contains the separator
(given adequate fuel). -/
theorem splitPartsFuel_sepFree (sep : Str) (hsep : sep ≠ []) :
    ∀ (fuel : Nat) (t acc : Str), t.length ≤ fuel →
      (∀ u v, acc.reverse = u ++ v → v ≠ [] →
        sep.isPrefixOf (v ++ t) = false) →
      ∀ p ∈ splitPartsFuel sep fuel acc t, containsSub sep p = false := by
  intro fuel
  induction fuel with
  | zero =>
    intro t acc hlen hinv p hp
    have ht : t = [] := List.eq_nil_of_length_eq_zero (Nat.le_zero.mp hlen)
    subst ht
    simp only [splitPartsFuel, List.append_nil, List.mem_singleton] at hp
    subst hp
    exact emit_free sep hsep acc [] hinv
  | succ fuel ih =>
    intro t acc hlen hinv p hp
    cases t with
    | nil =>
      simp only [splitPartsFuel, List.mem_singleton] at hp
      subst hp
      exact emit_free sep hsep acc [] hinv
    | cons c rest =>
      by_cases h : sep ≠ [] ∧ sep.isPrefixOf (c :: rest)
      · rw [splitPartsFuel, if_pos h] at hp
        rcases List.mem_cons.mp hp with rfl | hp2
        · exact emit_free sep hsep acc (c :: rest) hinv
        · refine ih ((c :: rest).drop sep.length) [] ?_ ?_ p hp2
          · have hslen : 1 ≤ sep.length := by
              cases hsepc : sep with
              | nil => exact absurd hsepc hsep
              | cons a as => simp
            simp only [List.length_drop, List.length_cons] at hlen ⊢
            omega
          · intro u v huv hv
            simp only [List.reverse_nil] at huv
            exact absurd ((List.append_eq_nil.mp huv.symm).2) hv
      · rw [splitPartsFuel, if_neg h] at hp
        have hnotpre : sep.isPrefixOf (c :: rest) = false := by
          rcases not_and_or.mp h with h1 | h2
          · exact absurd hsep (by simpa using h1)
          · exact Bool.eq_false_iff.mpr h2
        refine ih rest (c :: acc) (by simpa using Nat.le_of_succ_le_succ hlen) ?_ p hp
        intro u v huv hv
        rw [List.reverse_cons] at huv
        rcases List.append_eq_append_iff.mp huv.symm with ⟨a2, ha1, ha2⟩ | ⟨c2, hc1, hc2⟩
        · -- acc.reverse = u ++ a2, v = a2 ++ [c]
          cases a2 with
          | nil =>
            simp only [List.nil_append] at ha2
            rw [ha2]
            simpa using hnotpre
          | cons d ds =>
            have hfree := hinv u (d :: ds) ha1 (by simp)
            rw [ha2]
            have hre : ((d :: ds) ++ [c]) ++ rest = (d :: ds) ++ (c :: rest) := by
              simp
            rw [hre]
            exact hfree
        · -- u = acc.reverse ++ c2, [c] = c2 ++ v
          cases c2 with
          | nil =>
            simp only [List.nil_append] at hc2
            rw [← hc2]
            simpa using hnotpre
          | cons d ds =>
            simp only [List.cons_append, List.cons.injEq] at hc2
            exact absurd ((List.append_eq_nil.mp hc2.2.symm).2) hv

/-- `re.split` reconstructs its input. -/
theorem splitParts_join (sep t : Str) :
    joinSep sep (splitParts sep t) = t := by
  simpa using joinSep_splitPartsFuel sep t.length [] t

/-- `re.split` produces at least one part. -/
theorem splitParts_ne_nil (sep t : Str) : splitParts sep t ≠ [] :=
  splitPartsFuel_ne_nil sep t.length [] t

/-- No part produced by `re.split` contains the separator. -/
theorem splitParts_sepFree (sep t : Str) (hsep : sep ≠ []) :
    ∀ p ∈ splitParts sep t, containsSub sep p = false := by
  refine splitPartsFuel_sepFree sep hsep t.length t [] (le_refl _) ?_
  intro u v huv hv
  simp only [List.reverse_nil] at huv
  exact absurd ((List.append_eq_nil.mp huv.symm).2) hv

/-- The keep-separator pieces concatenate to the join of the parts. -/
theorem flatten_pieces (sep : Str) :
    ∀ (ps : List Str) (p : Str),
      p ++ (ps.map (fun q => sep ++ q)).flatten = joinSep sep (p :: ps) := by
  intro ps
  induction ps with
  | nil =>
    intro p
    simp [joinSep]
  | cons q qs ih =>
    intro p
    show p ++ ((sep ++ q) :: qs.map (fun r => sep ++ r)).flatten
        = p ++ sep ++ joinSep sep (q :: qs)
    rw [List.flatten_cons, ← ih q]
    simp

/-- Every piece of the keep-separator split is a contiguous substring of
the input. -/
theorem mem_splitKeepSep_substring {sep t s : Str}
    (hs : s ∈ splitKeepSep sep t) : s <:+: t := by
  unfold splitKeepSep at hs
  cases hps : splitParts sep t with
  | nil =>
    rw [hps] at hs
    exact absurd hs (by simp)
  | cons p ps =>
    rw [hps] at hs
    have hmem := List.mem_of_mem_filter hs
    have hjoin : p ++ (ps.map (fun q => sep ++ q)).flatten = t := by
      rw [flatten_pieces, ← hps]
      exact splitParts_join sep t
    rcases List.mem_cons.mp hmem with rfl | hmem2
    · exact ⟨[], (ps.map (fun q => sep ++ q)).flatten, by simpa using hjoin⟩
    · have h1 : s <:+: (ps.map (fun q => sep ++ q)).flatten :=
        List.infix_of_mem_flatten hmem2
      have h2 : (ps.map (fun q => sep ++ q)).flatten <:+: t :=
        ⟨p, [], by simpa using hjoin⟩
      exact h1.trans h2

/-- For a one-character separator, every keep-separator piece carries the
separator at most as its leading character. -/
theorem mem_splitKeepSep_leadOnly {sep t s : Str} (hsep1 : sep.length = 1)
    (hs : s ∈ splitKeepSep sep t) : leadOnly sep s := by
  have hsep : sep ≠ [] := by
    cases sep with
    | nil => simp at hsep1
    | cons a as => simp
  unfold splitKeepSep at hs
  cases hps : splitParts sep t with
  | nil =>
    rw [hps] at hs
    exact absurd hs (by simp)
  | cons p ps =>
    rw [hps] at hs
    have hmem := List.mem_of_mem_filter hs
    rcases List.mem_cons.mp hmem with rfl | hmem2
    · have hfree : containsSub sep s = false :=
        splitParts_sepFree sep t hsep s (by rw [hps]; exact List.mem_cons_self _ _)
      exact leadOnly_of_not_contains hfree
    · obtain ⟨q, hq, rfl⟩ := List.mem_map.mp hmem2
      have hfree : containsSub sep q = false :=
        splitParts_sepFree sep t hsep q
          (by rw [hps]; exact List.mem_cons_of_mem _ hq)
      obtain ⟨a, ha⟩ : ∃ a, sep = [a] := by
        cases sep with
        | nil => simp at hsep1
        | cons a as =>
          cases as with
          | nil => exact ⟨a, rfl⟩
          | cons b bs => simp at hsep1
      subst ha
      simpa [leadOnly] using hfree

/-- The separators remaining after `chooseSep` form a strictly shorter
list than a non-empty input list. -/
theorem chooseSep_snd_length_lt (seps : List Str) (t : Str) (h : seps ≠ []) :
    (chooseSep seps t).2.length < seps.length := by
  induction seps with
  | nil => exact absurd rfl h
  | cons s rest ih =>
    cases rest with
    | nil => simp [chooseSep]
    | cons s2 rest2 =>
      by_cases hc : containsSub s t
      · simp [chooseSep, hc]
      · have := ih (by simp)
        simp only [List.length_cons] at this ⊢
        simp [chooseSep, hc]
        omega

/-- The separators remaining after `chooseSep` are a suffix of the input
list. -/
theorem chooseSep_snd_suffix (seps : List Str) (t : Str) :
    (chooseSep seps t).2 <:+ seps := by
  induction seps with
  | nil => simp [chooseSep]
  | cons s rest ih =>
    cases rest with
    | nil => simp [chooseSep]
    | cons s2 rest2 =>
      by_cases hc : containsSub s t
      · simp only [chooseSep, hc, if_true]
        exact List.suffix_cons s (s2 :: rest2)
      · simp only [chooseSep, hc, if_false, Bool.false_eq_true]
        exact ih.trans (List.suffix_cons s (s2 :: rest2))

/-- The separator chosen by `chooseSep` is one of the input separators. -/
theorem chooseSep_fst_mem (seps : List Str) (t : Str) (h : seps ≠ []) :
    (chooseSep seps t).1 ∈ seps := by
  induction seps with
  | nil => exact absurd rfl h
  | cons s rest ih =>
    cases rest with
    | nil => simp [chooseSep]
    | cons s2 rest2 =>
      by_cases hc : containsSub s t
      · simp [chooseSep, hc]
      · simp only [chooseSep, hc, if_false, Bool.false_eq_true]
        exact List.mem_cons_of_mem s (ih (by simp))

/-- When `chooseSep` reports no remaining separators, every separator of
the list other than the chosen one is absent from the text. -/
theorem chooseSep_snd_nil_skip (seps : List Str) (t : Str)
    (h2 : (chooseSep seps t).2 = []) :
    ∀ q ∈ seps, q ≠ (chooseSep seps t).1 → containsSub q t = false := by
  induction seps with
  | nil => intro q hq; exact absurd hq (by simp)
  | cons s rest ih =>
    cases rest with
    | nil =>
      intro q hq hne
      simp only [List.mem_singleton] at hq
      exact absurd (by simpa [chooseSep] using hq) hne
    | cons s2 rest2 =>
      by_cases hc : containsSub s t
      · rw [chooseSep, if_pos hc] at h2
        exact absurd h2 (by simp)
      · rw [chooseSep, if_neg hc] at h2 ⊢
        intro q hq hne
        rcases List.mem_cons.mp hq with rfl | hq2
        · exact Bool.eq_false_iff.mpr hc
        · exact ih h2 q hq2 hne

/-- When `chooseSep` reports no remaining separators, the chosen
separator is the last of the list. -/
theorem chooseSep_snd_nil_fst_last (seps : List Str) (t : Str)
    (h : seps ≠ []) (h2 : (chooseSep seps t).2 = []) :
    seps.getLast? = some (chooseSep seps t).1 := by
  induction seps with
  | nil => exact absurd rfl h
  | cons s rest ih =>
    cases rest with
    | nil => simp [chooseSep]
    | cons s2 rest2 =>
      by_cases hc : containsSub s t
      · rw [chooseSep, if_pos hc] at h2
        exact absurd h2 (by simp)
      · rw [chooseSep, if_neg hc] at h2 ⊢
        rw [List.getLast?_cons_cons]
        exact ih (by simp) h2

/-- When separators remain after `chooseSep`, the input list decomposes
as skipped separators (absent from the text), the chosen separator, and
the remaining separators. -/
theorem chooseSep_decomp (seps : List Str) (t : Str)
    (h2 : (chooseSep seps t).2 ≠ []) :
    ∃ pre, seps = pre ++ (chooseSep seps t).1 :: (chooseSep seps t).2
      ∧ ∀ q ∈ pre, containsSub q t = false := by
  induction seps with
  | nil => exact absurd (by simp [chooseSep]) h2
  | cons s rest ih =>
    cases rest with
    | nil => exact absurd (by simp [chooseSep]) h2
    | cons s2 rest2 =>
      by_cases hc : containsSub s t
      · refine ⟨[], ?_, by simp⟩
        simp [chooseSep, hc]
      · rw [chooseSep, if_neg hc] at h2 ⊢
        obtain ⟨pre, hp1, hp2⟩ := ih h2
        refine ⟨s :: pre, by simpa using hp1, ?_⟩
        intro q hq
        rcases List.mem_cons.mp hq with rfl | hq2
        · exact Bool.eq_false_iff.mpr hc
        · exact hp2 q hq2

/-- A non-empty suffix of the separator priority list ends in `" "`. -/
theorem suffix_SEPARATORS_getLast? {σ : List Str} (hsuf : σ <:+ SEPARATORS)
    (hne : σ ≠ []) : σ.getLast? = some (strOf " ") := by
  obtain ⟨pre, hpre⟩ := hsuf
  have h1 : SEPARATORS.getLast? = σ.getLast? := by
    rw [← hpre]
    exact List.getLast?_append_of_ne_nil pre hne
  rw [← h1]
  decide

/-- Every separator other than `"\n\n"` is a single character. -/
theorem mem_SEPARATORS_one_char {q : Str} (hq : q ∈ SEPARATORS)
    (hne : q ≠ strOf "\n\n") : q.length = 1 := by
  fin_cases hq
  · exact absurd rfl hne
  · decide
  · decide
  · decide
  · decide
  · decide

/-- `sumLen` of the empty buffer. -/
theorem sumLen_nil : sumLen [] = 0 := rfl

/-- `sumLen` of a cons. -/
theorem sumLen_cons (c : Str) (cs : List Str) :
    sumLen (c :: cs) = c.length + sumLen cs := by
  simp [sumLen]

/-- `sumLen` distributes over append. -/
theorem sumLen_append (a b : List Str) :
    sumLen (a ++ b) = sumLen a + sumLen b := by
  simp [sumLen]

/-- The overlap-trimming loop keeps the running total consistent with the
buffer and stops with the total within the overlap and, unless the buffer
emptied, with room for the incoming split. -/
theorem popWhile_spec (cfg : ChunkCfg) (dlen : Nat) :
    ∀ (cur : List Str) (total : Nat), total = sumLen cur →
      (popWhile cfg dlen cur total).2 = sumLen (popWhile cfg dlen cur total).1
      ∧ (popWhile cfg dlen cur total).2 ≤ cfg.chunkOverlap
      ∧ ((popWhile cfg dlen cur total).2 + dlen ≤ cfg.chunkSize
          ∨ (popWhile cfg dlen cur total).2 = 0) := by
  intro cur
  induction cur with
  | nil =>
    intro total ht
    have ht0 : total = 0 := by simpa [sumLen] using ht
    subst ht0
    simp [popWhile, sumLen]
  | cons c cs ih =>
    intro total ht
    by_cases hcond : cfg.chunkOverlap < total
        ∨ (cfg.chunkSize < total + dlen ∧ 0 < total)
    · rw [popWhile, if_pos hcond]
      refine ih (total - c.length) ?_
      rw [ht, sumLen_cons]
      omega
    · rw [popWhile, if_neg hcond]
      push_neg at hcond
      exact ⟨ht, hcond.1, by
        rcases Nat.lt_or_ge cfg.chunkSize (total + dlen) with hlt | hge
        · exact Or.inr (Nat.le_zero.mp (hcond.2 hlt))
        · exact Or.inl hge⟩

/-- A joined document is no longer than the buffer it came from. -/
theorem joinDocs_length_le (cur : List Str) :
    ∀ d, joinDocs cur = some d → d.length ≤ sumLen cur := by
  intro d hd
  simp only [joinDocs] at hd
  by_cases h : pyStrip cur.flatten = []
  · rw [if_pos h] at hd
    cases hd
  · rw [if_neg h] at hd
    injection hd with hd
    subst hd
    calc (pyStrip cur.flatten).length
        ≤ cur.flatten.length := pyStrip_length_le _
      _ = sumLen cur := by simp [sumLen]

/-- Flushing the buffer emits only documents within the size bound. -/
theorem flushDocs_bound (cfg : ChunkCfg) (docs cur : List Str)
    (hdocs : ∀ x ∈ docs, x.length ≤ cfg.chunkSize)
    (hcur : sumLen cur ≤ cfg.chunkSize) :
    ∀ x ∈ flushDocs docs cur, x.length ≤ cfg.chunkSize := by
  intro x hx
  unfold flushDocs at hx
  cases hj : joinDocs cur with
  | none =>
    rw [hj] at hx
    exact hdocs x hx
  | some d =>
    rw [hj] at hx
    rcases List.mem_append.mp hx with hx1 | hx2
    · exact hdocs x hx1
    · simp only [List.mem_singleton] at hx2
      subst hx2
      exact le_trans (joinDocs_length_le cur x hj) hcur

/-- Every document produced by the merge loop from splits each strictly
shorter than `chunk_size` is at most `chunk_size` long. -/
theorem mergeLoop_bound (cfg : ChunkCfg) :
    ∀ (splits docs cur : List Str) (total : Nat),
      (∀ d ∈ splits, d.length < cfg.chunkSize) →
      (∀ x ∈ docs, x.length ≤ cfg.chunkSize) →
      total = sumLen cur → total ≤ cfg.chunkSize →
      ∀ x ∈ mergeLoop cfg docs cur total splits,
        x.length ≤ cfg.chunkSize := by
  intro splits
  induction splits with
  | nil =>
    intro docs cur total hs hd hin htot x hx
    rw [mergeLoop] at hx
    exact flushDocs_bound cfg docs cur hd (hin ▸ htot) x hx
  | cons d rest ih =>
    intro docs cur total hs hd hin htot x hx
    have hdlen : d.length < cfg.chunkSize := hs d (List.mem_cons_self _ _)
    by_cases hover : cfg.chunkSize < total + d.length
    · cases cur with
      | nil =>
        rw [mergeLoop.eq_def] at hx
        simp only [if_pos hover] at hx
        exact ih docs [d] d.length
          (fun e he => hs e (List.mem_cons_of_mem _ he)) hd
          (by simp [sumLen]) (le_of_lt hdlen) x hx
      | cons c0 cs0 =>
        rw [mergeLoop.eq_def] at hx
        simp only [if_pos hover] at hx
        have hspec := popWhile_spec cfg d.length (c0 :: cs0) total hin
        refine ih (flushDocs docs (c0 :: cs0))
          ((popWhile cfg d.length (c0 :: cs0) total).1 ++ [d])
          ((popWhile cfg d.length (c0 :: cs0) total).2 + d.length)
          (fun e he => hs e (List.mem_cons_of_mem _ he))
          (flushDocs_bound cfg docs (c0 :: cs0) hd (hin ▸ htot))
          ?_ ?_ x hx
        · rw [sumLen_append, sumLen_cons, sumLen_nil, hspec.1]
          omega
        · rcases hspec.2.2 with hle | h0
          · exact hle
          · rw [h0]
            omega
    · rw [mergeLoop.eq_def] at hx
      simp only [if_neg hover] at hx
      exact ih docs (cur ++ [d]) (total + d.length)
        (fun e he => hs e (List.mem_cons_of_mem _ he)) hd
        (by rw [sumLen_append, sumLen_cons, sumLen_nil, hin]; omega)
        (not_lt.mp hover) x hx

/-- `_merge_splits` on splits each strictly shorter than `chunk_size`
produces documents of at most `chunk_size` characters. -/
theorem mergeSplits_bound (cfg : ChunkCfg) (splits : List Str)
    (hs : ∀ d ∈ splits, d.length < cfg.chunkSize) :
    ∀ x ∈ mergeSplits cfg splits, x.length ≤ cfg.chunkSize :=
  mergeLoop_bound cfg splits [] [] 0 hs (by simp) (by simp [sumLen])
    (Nat.zero_le _)

/-- At a leaf of the splitter recursion (no separators remain after the
chosen one), every piece is an atomic chunk: no separator occurs in it
past its first character. -/
theorem leaf_pieces_atomic {σ : List Str} {t : Str}
    (hsuf : σ <:+ SEPARATORS) (hne : σ ≠ []) (hinv : SplitInv σ t)
    (hleaf : (chooseSep σ t).2 = []) :
    ∀ s ∈ splitKeepSep (chooseSep σ t).1 t, atomicChunk s := by
  intro s hs
  have hfst_last : σ.getLast? = some (chooseSep σ t).1 :=
    chooseSep_snd_nil_fst_last σ t hne hleaf
  have hfst_space : (chooseSep σ t).1 = strOf " " := by
    have hg := suffix_SEPARATORS_getLast? hsuf hne
    rw [hfst_last] at hg
    injection hg with hg
  have hinfix : s <:+: t := mem_splitKeepSep_substring hs
  have hlead_space : leadOnly (strOf " ") s := by
    rw [hfst_space] at hs
    exact mem_splitKeepSep_leadOnly (by decide) hs
  intro q hq
  by_cases hqin : q ∈ σ
  · by_cases hqfst : q = (chooseSep σ t).1
    · rw [hqfst, hfst_space]
      exact hlead_space
    · have habs : containsSub q t = false :=
        chooseSep_snd_nil_skip σ t hleaf q hqin hqfst
      exact not_containsSub_mono ((List.drop_suffix 1 s).isInfix)
        (not_containsSub_mono hinfix habs)
  · by_cases hqnl : q = strOf "\n\n"
    · subst hqnl
      by_cases hnl_in : strOf "\n" ∈ σ
      · have hne2 : strOf "\n" ≠ (chooseSep σ t).1 := by
          rw [hfst_space]
          decide
        have habs : containsSub (strOf "\n") t = false :=
          chooseSep_snd_nil_skip σ t hleaf _ hnl_in hne2
        have habs_s : containsSub (strOf "\n") s = false :=
          not_containsSub_mono hinfix habs
        have habs_nlnl : containsSub (strOf "\n\n") s = false :=
          not_contains_nlnl_of_leadOnly_nl (leadOnly_of_not_contains habs_s)
        exact not_containsSub_mono ((List.drop_suffix 1 s).isInfix)
          habs_nlnl
      · have hld : leadOnly (strOf "\n") t :=
          hinv _ (by decide) hnl_in (by decide)
        have hld_s : leadOnly (strOf "\n") s := leadOnly_mono hinfix hld
        have habs_nlnl : containsSub (strOf "\n\n") s = false :=
          not_contains_nlnl_of_leadOnly_nl hld_s
        exact not_containsSub_mono ((List.drop_suffix 1 s).isInfix)
          habs_nlnl
    · exact leadOnly_mono hinfix (hinv q hq hqin hqnl)

/-- At an inner node of the splitter recursion, every piece satisfies the
invariant for the remaining separators. -/
theorem step_pieces_inv {σ : List Str} {t : Str}
    (hinv : SplitInv σ t)
    (hstep : (chooseSep σ t).2 ≠ []) :
    ∀ s ∈ splitKeepSep (chooseSep σ t).1 t,
      SplitInv (chooseSep σ t).2 s := by
  intro s hs q hqSep hqnotin hqnl
  have hinfix : s <:+: t := mem_splitKeepSep_substring hs
  by_cases hqσ : q ∈ σ
  · obtain ⟨pre, hdec, hpre⟩ := chooseSep_decomp σ t hstep
    have hcases : q ∈ pre ∨ q = (chooseSep σ t).1 := by
      rw [hdec] at hqσ
      rcases List.mem_append.mp hqσ with h1 | h2
      · exact Or.inl h1
      · rcases List.mem_cons.mp h2 with h3 | h4
        · exact Or.inr h3
        · exact absurd h4 hqnotin
    rcases hcases with hqpre | hqfst
    · exact leadOnly_of_not_contains
        (not_containsSub_mono hinfix (hpre q hqpre))
    · have h1 : q.length = 1 := mem_SEPARATORS_one_char hqSep hqnl
      rw [hqfst]
      exact mem_splitKeepSep_leadOnly (hqfst ▸ h1) hs
  · exact leadOnly_mono hinfix (hinv q hqSep hqσ hqnl)

/-- Soundness of the split-processing loop: provided the oversized-piece
handler only emits chunks that are within the bound or atomic, every
produced chunk is within the bound or atomic. -/
theorem processSplits_sound (cfg : ChunkCfg) (handleBad : Str → List Str) :
    ∀ (splits good : List Str),
      (∀ s ∈ splits, cfg.chunkSize ≤ s.length →
        ∀ c ∈ handleBad s, c.length ≤ cfg.chunkSize ∨ atomicChunk c) →
      (∀ g ∈ good, g.length < cfg.chunkSize) →
      ∀ c ∈ processSplits cfg handleBad splits good,
        c.length ≤ cfg.chunkSize ∨ atomicChunk c := by
  intro splits
  induction splits with
  | nil =>
    intro good hbad hgood c hc
    rw [processSplits] at hc
    by_cases hg : good ≠ []
    · rw [if_pos hg] at hc
      exact Or.inl (mergeSplits_bound cfg good hgood c hc)
    · rw [if_neg hg] at hc
      exact absurd hc (by simp)
  | cons s rest ih =>
    intro good hbad hgood c hc
    rw [processSplits] at hc
    by_cases hlen : s.length < cfg.chunkSize
    · rw [if_pos hlen] at hc
      refine ih (good ++ [s])
        (fun e he => hbad e (List.mem_cons_of_mem _ he)) ?_ c hc
      intro g hg
      rcases List.mem_append.mp hg with h1 | h2
      · exact hgood g h1
      · simp only [List.mem_singleton] at h2
        subst h2
        exact hlen
    · rw [if_neg hlen] at hc
      rcases List.mem_append.mp hc with h12 | h3
      · rcases List.mem_append.mp h12 with h1 | h2
        · by_cases hg : good ≠ []
          · rw [if_pos hg] at h1
            exact Or.inl (mergeSplits_bound cfg good hgood c h1)
          · rw [if_neg hg] at h1
            exact absurd h1 (by simp)
        · exact hbad s (List.mem_cons_self _ _) (not_lt.mp hlen) c h2
      · exact ih [] (fun e he => hbad e (List.mem_cons_of_mem _ he))
          (by simp) c h3

/-- Soundness of the recursive splitter: starting from any non-empty
suffix of the separator priority list satisfying the invariant (adequate
fuel supplied), every produced chunk is within the size bound or atomic. -/
theorem splitTextFuel_sound (cfg : ChunkCfg) :
    ∀ (fuel : Nat) (σ : List Str) (t : Str),
      σ.length ≤ fuel → σ ≠ [] → σ <:+ SEPARATORS → SplitInv σ t →
      ∀ c ∈ splitTextFuel cfg fuel σ t,
        c.length ≤ cfg.chunkSize ∨ atomicChunk c := by
  intro fuel
  induction fuel with
  | zero =>
    intro σ t hlen hne
    exact absurd (List.eq_nil_of_length_eq_zero (Nat.le_zero.mp hlen)) hne
  | succ fuel ih =>
    intro σ t hlen hne hsuf hinv c hc
    cases σ with
    | nil => exact absurd rfl hne
    | cons s0 rest0 =>
      rw [splitTextFuel] at hc
      refine processSplits_sound cfg _
        (splitKeepSep (chooseSep (s0 :: rest0) t).1 t) [] ?_ (by simp) c hc
      intro s hsmem hslen c2 hc2
      by_cases hleaf : (chooseSep (s0 :: rest0) t).2 = []
      · rw [if_pos hleaf] at hc2
        simp only [List.mem_singleton] at hc2
        subst hc2
        exact Or.inr (leaf_pieces_atomic hsuf hne hinv hleaf c2 hsmem)
      · rw [if_neg hleaf] at hc2
        refine ih (chooseSep (s0 :: rest0) t).2 s ?_ hleaf
          ((chooseSep_snd_suffix _ t).trans hsuf)
          (step_pieces_inv hinv hleaf s hsmem) c2 hc2
        have := chooseSep_snd_length_lt (s0 :: rest0) t (by simp)
        simp only [List.length_cons] at this hlen
        omega

/-- Counterexample to claim C3 as stated: the claim allows a chunk to
exceed `chunk_size` only when a single atomic token with no available
boundary is itself longer than `chunk_size`.  With `chunk_size = 5`,
splitting `"a xxxxx"` produces the chunk `" xxxxx"` of `char_count = 6 > 5`
(the splitter keeps the separator attached to the following token), while
every atomic (boundary-free) token of the input — and of every produced
chunk — has length at most `5`, i.e. none is longer than `chunk_size`. -/
theorem claim_C3_counterexample :
    chunkerSplit ⟨5, 2⟩ (strOf "a xxxxx") (strOf "doc")
      = .ok [⟨strOf "doc_chunk_0", strOf "a", ⟨strOf "doc", 0, 2, 1⟩⟩,
             ⟨strOf "doc_chunk_1", strOf " xxxxx", ⟨strOf "doc", 1, 2, 6⟩⟩]
    ∧ 5 < 6
    ∧ (∀ tok ∈ atomTokens (strOf "a xxxxx"), tok.length ≤ 5)
    ∧ (∀ tok ∈ atomTokens (strOf " xxxxx"), tok.length ≤ 5) :=
  ⟨by rfl, by decide, by decide, by decide⟩

/-- Claim C3, amended: for every non-empty input text, every chunk
produced by `split` has `char_count` at most `chunk_size`, except chunks
that admit no boundary split at all: chunks in which no separator occurs
past the first character (a single atomic token, possibly preceded by one
attached boundary character).  In particular an atomic token of length
`chunk_size` or more — not only strictly longer — can yield an oversized
chunk, because the attached boundary character counts toward
`char_count`. -/
theorem claim_C3_amended (cfg : ChunkCfg) (text sourceName : Str)
    (chunks : List ChunkRec)
    (h : chunkerSplit cfg text sourceName = .ok chunks) :
    ∀ c ∈ chunks,
      c.metadata.char_count ≤ cfg.chunkSize ∨ atomicChunk c.text := by
  rw [chunkerSplit] at h
  by_cases hb : text = [] ∨ pyStrip text = []
  · rw [if_pos hb] at h
    exact absurd h (by simp)
  · rw [if_neg hb] at h
    injection h with h
    subst h
    intro c hc
    simp only [List.mem_map] at hc
    obtain ⟨p, hp, rfl⟩ := hc
    have hmem : p.2 ∈ splitText cfg text := by
      have h2 : p.2 ∈ (splitText cfg text).enum.map Prod.snd :=
        List.mem_map_of_mem Prod.snd hp
      rwa [List.enum_map_snd] at h2
    exact splitTextFuel_sound cfg SEPARATORS.length SEPARATORS text
      (le_refl _) (by decide) (List.suffix_refl _)
      (fun q hq hqn _ => absurd hq hqn) p.2 hmem

/-- Witness for the amended C3 at the concrete split of `"a xxxxx"` with
`chunk_size = 5`: the oversized second chunk (`char_count = 6`) is
atomic. -/
theorem claim_C3_witness :
    (6 : Nat) ≤ 5 ∨ atomicChunk (strOf " xxxxx") :=
  claim_C3_amended ⟨5, 2⟩ (strOf "a xxxxx") (strOf "doc")
    [⟨strOf "doc_chunk_0", strOf "a", ⟨strOf "doc", 0, 2, 1⟩⟩,
     ⟨strOf "doc_chunk_1", strOf " xxxxx", ⟨strOf "doc", 1, 2, 6⟩⟩]
    (by rfl)
    (ChunkRec.mk (strOf "doc_chunk_1") (strOf " xxxxx")
      ⟨strOf "doc", 1, 2, 6⟩)
    (by simp)
